import Mathlib

/-
Verification development for the EmbeddedSmartAlarm gateway firmware core.

Shallow embedding of:
  * MQTTManager::topicMatches        (src/src/gateway_esp32/mqtt_manager.cpp, lines 61-113)
  * MQTTManager::registerHandler     (src/src/gateway_esp32/mqtt_manager.cpp, lines 24-38)
  * AudioManager::processStreamingAudio (src/src/gateway_esp32/audio_manager.cpp, lines 361-453)
  * webSocketEvent (WStype_BIN branch)  (src/unnamed/part_001, lines 111-156)
  * AudioManager::handleAudioChunk   (src/unnamed/part_003, lines 1332-1468)
  * AudioManager::playing            (src/unnamed/part_003, lines 1217-1233)

Strings are embedded as `List Char`, machine byte buffers as `List Nat`
(each element a byte value), and sizes as `Nat` with explicit modular
reduction where C integer conversions occur.
-/

set_option maxHeartbeats 1000000

/-! ## MQTT wildcard topic matching (MQTTManager::topicMatches) -/

/-- Embedding of Arduino `String::indexOf(c, from)` as used inside
`MQTTManager::topicMatches`, composed with the source's `-1 ↦ length`
normalisation (`if (patternSep == -1) patternSep = patternLen;`):
the first index `≥ i` holding `c`, or the string length when there is
no such index.  (`List.findIdx` returns the list length on failure.)
All call sites in the source have `i < s.length`. -/
def indexOfFrom (s : List Char) (c : Char) (i : Nat) : Nat :=
  i + (s.drop i).findIdx (fun x => x == c)

/-- Embedding of Arduino `String::substring(a, b)`: the characters of `s`
with index in `[a, b)`. -/
def substringOf (s : List Char) (a b : Nat) : List Char :=
  (s.take b).drop a

/-- Embedding of the `while (patternIdx < patternLen && topicIdx < topicLen)`
loop of `MQTTManager::topicMatches` (mqtt_manager.cpp lines 78-112),
including the final `return patternIdx >= patternLen && topicIdx >= topicLen`.
The loop state is the pair of cursor indices `pi` into `p` (the pattern) and
`ti` into `t` (the topic).  `fuel` is a structural-recursion bound only:
every iteration strictly increases `pi`, so `p.length + 1` fuel is enough
for the whole loop and the fuel-exhaustion clause is never reached from
`topicMatches` (the clause returns the loop-exit value, keeping the
function total). -/
def matchLoop : Nat → List Char → List Char → Nat → Nat → Bool
  | 0, p, t, pi, ti => decide (p.length ≤ pi ∧ t.length ≤ ti)
  | fuel + 1, p, t, pi, ti =>
    if pi < p.length ∧ ti < t.length then
      -- `if (pattern[patternIdx] == '#')` with
      -- `# must be last character or followed by '/'`
      if p.getD pi ' ' = '#' ∧ (pi = p.length - 1 ∨ p.getD (pi + 1) ' ' = '/') then
        true
      else
        let patternSep := indexOfFrom p '/' pi
        let topicSep := indexOfFrom t '/' ti
        let patternLevel := substringOf p pi patternSep
        let topicLevel := substringOf t ti topicSep
        if patternLevel = ['+'] ∨ patternLevel = topicLevel then
          matchLoop fuel p t (patternSep + 1) (topicSep + 1)
        else
          false
    else
      decide (p.length ≤ pi ∧ t.length ≤ ti)

/-- Embedding of `MQTTManager::topicMatches(pattern, topic)`
(mqtt_manager.cpp lines 61-113): exact-match fast path, wildcard-free
early `false`, then the level-by-level loop. -/
def topicMatches (pattern topic : List Char) : Bool :=
  if pattern = topic then true
  else if ¬ pattern.contains '+' ∧ ¬ pattern.contains '#' then false
  else matchLoop (pattern.length + 1) pattern topic 0 0

/-- Splitting a string into `/`-separated levels, as the specification
prescribes ("segments are split on `/`"); an empty string is one empty
segment and a trailing `/` yields a trailing empty segment, exactly as
in the MQTT standard. -/
def splitSegs : List Char → List (List Char)
  | [] => [[]]
  | c :: rest =>
    if c = '/' then
      [] :: splitSegs rest
    else
      match splitSegs rest with
      | seg :: segs => (c :: seg) :: segs
      | [] => [[c]]

/-- Matching on segment lists, modelled from the specification text of
§4.3: a `#` segment matches the whole remainder of the topic only when it
is the final pattern segment; a `+` segment matches exactly one topic
segment of any content; any other segment must equal the corresponding
topic segment literally; matching fails when segment counts disagree
unless a trailing `#` absorbed the remainder (an empty remainder is also
absorbed, as in the MQTT standard where `sport/#` matches `sport`). -/
def specSegMatch : List (List Char) → List (List Char) → Bool
  | [], ts => ts.isEmpty
  | p :: ps, ts =>
    if p = ['#'] ∧ ps = [] then true
    else
      match ts with
      | [] => false
      | t :: ts2 =>
        if p = ['+'] then specSegMatch ps ts2
        else decide (p = t) && specSegMatch ps ts2

/-- Specification-side matcher on whole strings: split both on `/` and
match segment lists per §4.3. -/
def specMatches (pattern topic : List Char) : Bool :=
  specSegMatch (splitSegs pattern) (splitSegs topic)



/-- Joining a list of `/`-free segments back into a topic or filter string
(the inverse of `splitSegs` on such lists); used to parameterise theorems
by segment structure. -/
def joinSegs : List (List Char) → List Char
  | [] => []
  | [s] => s
  | s :: ps => s ++ '/' :: joinSegs ps

/-- Well-formedness of a topic-filter segment list: segments hold no `/`;
a `#` appears only as the whole final segment; the final segment is
nonempty (the filter does not end in `/`). -/
def patSegsOK (ps : List (List Char)) : Prop :=
  (∀ s ∈ ps, ('/' : Char) ∉ s) ∧
  (∀ s ∈ ps.dropLast, ('#' : Char) ∉ s) ∧
  (∀ l, ps.getLast? = some l → l ≠ [] ∧ (l = ['#'] ∨ ('#' : Char) ∉ l))

/-- Well-formedness of a topic segment list: segments hold no `/` and the
final segment is nonempty (the topic does not end in `/`). -/
def topSegsOK (ts : List (List Char)) : Prop :=
  (∀ s ∈ ts, ('/' : Char) ∉ s) ∧
  (∀ l, ts.getLast? = some l → l ≠ [])

/-! ## Handler registration (MQTTManager::registerHandler) -/

/-- Embedding of the `MQTTHandler` registration record: topic-filter
pattern, human-readable name and priority (the callback function object
is not part of the ordering behaviour and is omitted). -/
structure MQTTHandler where
  topicPattern : List Char
  name : List Char
  priority : Nat
  deriving DecidableEq, Repr

/-- Specification of one `std::sort(handlers.begin(), handlers.end(), cmp)`
call with `cmp = (a.priority > b.priority)`, as executed at the end of
`MQTTManager::registerHandler`: the ISO C++ contract guarantees only that
the output is a permutation of the input that is sorted with respect to
`cmp` — i.e. priorities are non-increasing.  `std::sort` is not a stable
sort, so the relative order of equal-priority elements is not otherwise
constrained; any output satisfying this predicate is a legal behaviour of
the source line. -/
def IsStdSortOutcome (input output : List MQTTHandler) : Prop :=
  output.Perm input ∧ output.Pairwise (fun a b => b.priority ≤ a.priority)

/-- Reachability of a handler table by a sequence of
`MQTTManager::registerHandler` calls starting from the empty table: each
call appends the new handler (`handlers.push_back(...)`) and then replaces
the table by some legal `std::sort` outcome. -/
inductive RegReaches : List MQTTHandler → List MQTTHandler → Prop
  | nil : RegReaches [] []
  | step {regs table h table2} : RegReaches regs table →
      IsStdSortOutcome (table ++ [h]) table2 →
      RegReaches (regs ++ [h]) table2

/-- The tie-order property claimed by the specification: any two distinct
registrations with equal priority appear in the table in their original
registration order. -/
def TiesInRegOrder (regs table : List MQTTHandler) : Prop :=
  ∀ i j, (hi : i < regs.length) → (hj : j < regs.length) → i < j →
    (regs.get ⟨i, hi⟩).priority = (regs.get ⟨j, hj⟩).priority →
    table.indexOf (regs.get ⟨i, hi⟩) < table.indexOf (regs.get ⟨j, hj⟩)

/-! ## Streaming producer (webSocketEvent, WStype_BIN branch) -/

/-- Capacity of the Opus jitter stream buffer
(`BUFFER_SIZE_BYTES`, streaming_config.h). -/
def BUFFER_SIZE_BYTES : Nat := 8192

/-- Size of the little-endian packet length header
(`PACKET_HEADER_SIZE`, streaming_config.h). -/
def PACKET_HEADER_SIZE : Nat := 2

/-- Maximum size of one Opus packet
(`MAX_OPUS_PACKET_SIZE`, streaming_config.h). -/
def MAX_OPUS_PACKET_SIZE : Nat := 512

/-- Pre-roll trigger threshold
(`PREROLL_MIN_BYTES = BUFFER_SIZE_BYTES * PREROLL_BUFFER_PERCENT / 100`
with `PREROLL_BUFFER_PERCENT = 50`, streaming_config.h). -/
def PREROLL_MIN_BYTES : Nat := BUFFER_SIZE_BYTES * 50 / 100

/-- Embedding of `xStreamBufferSend(buffer, data, n, 0)` on a byte-list
model of the FreeRTOS stream buffer with capacity `cap`: with a zero
ticks-to-wait the call copies as many bytes as fit in the free space and
returns the number copied. -/
def sbSend (buf : List Nat) (cap : Nat) (data : List Nat) : List Nat × Nat :=
  let space := cap - buf.length
  let written := min data.length space
  (buf ++ data.take written, written)

/-- Little-endian byte encoding of the `uint16_t packetLength = (uint16_t)length`
header written by the producer. -/
def packetHeader (len : Nat) : List Nat :=
  [len % 65536 % 256, len % 65536 / 256]

/-- Embedding of the `WStype_BIN` branch of `webSocketEvent`
(src/unnamed/part_001, lines 111-156): check free space against
`PACKET_HEADER_SIZE + length`, drop the packet when it does not fit,
otherwise write the two-byte little-endian length header and then the
payload.  Returns the new buffer contents and whether the packet was
accepted (`false` = dropped).  `payload` is the received binary frame as
a byte list. -/
def wsPushBin (buf : List Nat) (payload : List Nat) : List Nat × Bool :=
  let availableSpace := BUFFER_SIZE_BYTES - buf.length
  let requiredSpace := PACKET_HEADER_SIZE + payload.length
  if availableSpace < requiredSpace then
    (buf, false)
  else
    let r1 := sbSend buf BUFFER_SIZE_BYTES (packetHeader payload.length)
    if r1.2 ≠ PACKET_HEADER_SIZE then
      (r1.1, false)
    else
      let r2 := sbSend r1.1 BUFFER_SIZE_BYTES payload
      if r2.2 ≠ payload.length then
        (r2.1, false)
      else
        (r2.1, true)

/-- The byte sequence a fully successful push appends to the stream
buffer: two-byte little-endian length header followed by the payload. -/
def encodedPacket (payload : List Nat) : List Nat :=
  packetHeader payload.length ++ payload

/-! ## Streaming consumer (AudioManager::processStreamingAudio) -/

/-- The `AudioState` enumeration of streaming_config.h. -/
inductive AudioState where
  | idle
  | playingFile
  | streaming
  deriving DecidableEq, Repr

/-- Streaming-relevant state of the gateway `AudioManager` plus the
shared `opusStreamBuffer`: the audio mode, whether the Opus decoder and
the stream buffer exist (non-null pointers), the one-shot pre-roll gate,
and the buffered bytes. -/
structure StreamState where
  currentState : AudioState
  opusDecoderPresent : Bool
  bufferPresent : Bool
  prerollComplete : Bool
  buffer : List Nat
  deriving DecidableEq, Repr

/-- What one `processStreamingAudio` call wrote to the I2S output:
nothing (early return), one silence buffer, or one decoded PCM frame of
`samples` samples. -/
inductive AudioOut where
  | noOutput
  | silence
  | frame (samples : Int)
  deriving DecidableEq, Repr

/-- Embedding of `AudioManager::processStreamingAudio()`
(src/src/gateway_esp32/audio_manager.cpp, lines 361-453).  The state of
the Opus decoder is abstracted by `decodeResult`: the value
`opus_decode` would return for the packet (negative = decode failure).
`xStreamBufferReceive(buffer, dst, n, timeout)` removes
`min n available` bytes from the front of the buffer and returns that
count. -/
def processStreamingAudio (st : StreamState) (decodeResult : Int) :
    StreamState × AudioOut :=
  if st.currentState ≠ AudioState.streaming ∨ st.opusDecoderPresent = false then
    (st, AudioOut.noOutput)
  else if st.bufferPresent = false then
    (st, AudioOut.noOutput)
  else if st.prerollComplete = false ∧ st.buffer.length < PREROLL_MIN_BYTES then
    -- buffer not full enough yet: write silence to I2S and return
    (st, AudioOut.silence)
  else
    let st1 := if st.prerollComplete = false then
        { st with prerollComplete := true } else st
    -- step 1: read the two-byte packet length header
    let hdr := st1.buffer.take PACKET_HEADER_SIZE
    let buf1 := st1.buffer.drop PACKET_HEADER_SIZE
    if hdr.length ≠ PACKET_HEADER_SIZE then
      ({ st1 with buffer := buf1 }, AudioOut.silence)
    else
      let packetLength := hdr.getD 0 0 % 256 + 256 * (hdr.getD 1 0 % 256)
      if packetLength = 0 ∨ MAX_OPUS_PACKET_SIZE < packetLength then
        ({ st1 with buffer := buf1 }, AudioOut.silence)
      else
        -- step 2: read the Opus packet itself
        let pkt := buf1.take packetLength
        let buf2 := buf1.drop packetLength
        if pkt.length ≠ packetLength then
          ({ st1 with buffer := buf2 }, AudioOut.silence)
        -- step 3: decode (silence on failure), step 4: write PCM
        else if decodeResult < 0 then
          ({ st1 with buffer := buf2 }, AudioOut.silence)
        else
          ({ st1 with buffer := buf2 }, AudioOut.frame decodeResult)

/-- One event of a streaming session: the network producer delivering a
binary WebSocket frame, or the audio-decode task calling
`processStreamingAudio` (with the decoder result for that call). -/
inductive StreamEv where
  | push (payload : List Nat)
  | advance (decodeResult : Int)

/-- Effect of one session event on the shared state. -/
def streamStep (st : StreamState) (ev : StreamEv) : StreamState × AudioOut :=
  match ev with
  | StreamEv.push payload => ({ st with buffer := (wsPushBin st.buffer payload).1 }, AudioOut.noOutput)
  | StreamEv.advance d => processStreamingAudio st d

/-- State reached after the first `n` events of a session. -/
def stateAt (st : StreamState) (evs : List StreamEv) (n : Nat) : StreamState :=
  (evs.take n).foldl (fun s e => (streamStep s e).1) st

/-- A live streaming session: streaming mode with decoder and stream
buffer in place (as established by `startStreaming`). -/
def SessionLive (st : StreamState) : Prop :=
  st.currentState = AudioState.streaming ∧
  st.opusDecoderPresent = true ∧ st.bufferPresent = true

/-! ## Chunked file transfer (AudioManager::handleAudioChunk, src/unnamed/part_003) -/

/-- MQTT topic for acknowledgements (`MQTT_TOPIC_AUDIO_ACK`, config.h). -/
def TOPIC_ACK : String := "esp32/audio_ack"

/-- MQTT topic for upload status replies (`MQTT_TOPIC_AUDIO_RESPONSE`, config.h). -/
def TOPIC_RESPONSE : String := "esp32/audio_response"

/-- Character classified as white space by C `isspace` (the prelude of `atoi`). -/
def isSpaceByte (c : Char) : Bool :=
  c.toNat = 32 ∨ (9 ≤ c.toNat ∧ c.toNat ≤ 13)

/-- Character in `0`..`9`. -/
def isDigitByte (c : Char) : Bool :=
  48 ≤ c.toNat ∧ c.toNat ≤ 57

/-- Decimal value of a digit run. -/
def digitsVal (l : List Char) : Nat :=
  l.foldl (fun a c => 10 * a + (c.toNat - 48)) 0

/-- Embedding of C `atoi`/`atol` (also the semantics of Arduino
`String::toInt`): skip leading white space, consume an optional sign,
then a maximal run of decimal digits; the result is 0 when no digit
follows.  Mathematical (unbounded) integer result; all inputs exercised
by the theorems below are far from the machine overflow range, where
`atoi` is undefined anyway. -/
def atoiChars (l : List Char) : Int :=
  let l1 := l.dropWhile isSpaceByte
  match l1 with
  | '-' :: r => - (digitsVal (r.takeWhile isDigitByte) : Int)
  | '+' :: r => (digitsVal (r.takeWhile isDigitByte) : Int)
  | _ => (digitsVal (l1.takeWhile isDigitByte) : Int)

/-- Conversion of a C `long`/`int` value to `size_t` (32-bit on the
ESP32): reduction modulo 2^32. -/
def intToSize (i : Int) : Nat :=
  (i % ((2 : Int) ^ 32)).toNat

/-- Embedding of the helper `parseNumberFromPayload(payload, start, end)`
(src/unnamed/part_003, lines 1258-1265): copy the bytes in
`[start, end)` into a 16-byte buffer and `atoi` them; out-of-range
lengths give 0. -/
def parseNumberFromPayload (payload : List Char) (start endIdx : Nat) : Int :=
  let len : Int := (endIdx : Int) - (start : Int)
  if len ≤ 0 ∨ 16 ≤ len then 0
  else atoiChars (substringOf payload start endIdx)

/-- Decimal rendering of an `int` as `snprintf("%d", i)` produces it;
used for the `ACK:%d` payload. -/
def intDecimal (i : Int) : List Char :=
  if i < 0 then '-' :: Nat.toDigits 10 i.natAbs
  else Nat.toDigits 10 i.toNat

/-- The colon scan of the `CHUNK` branch (src/unnamed/part_003, lines
1388-1399): positions of the first and second `:` at index ≥ 6, if both
exist. -/
def findTwoColons (payload : List Char) : Option (Nat × Nat) :=
  match (payload.drop 6).findIdx? (fun c => c == ':') with
  | none => none
  | some j1 =>
    match ((payload.drop 6).drop (j1 + 1)).findIdx? (fun c => c == ':') with
    | none => none
    | some j2 => some (6 + j1, 6 + j1 + 1 + j2)

/-- File-transfer state of the SD-card `AudioManager`
(src/unnamed/part_003): the receiving flag, expected/received byte
counts, destination filename, upload-timeout stamp, and a model of the
destination file (open flag and bytes written so far). -/
structure TransferState where
  receivingFile : Bool
  expectedSize : Nat
  receivedSize : Nat
  recvFilename : List Char
  lastChunkTime : Nat
  fileOpen : Bool
  fileData : List Char
  deriving DecidableEq, Repr

/-- Environment of one `handleAudioChunk` call: results of the external
calls it makes (`sdManager->isReady()`, `sdManager->openForWrite(...)`,
`sdManager->writeChunk(...)`), whether the `mqttManager` pointer is set,
and the current `millis()` clock. -/
structure ChunkEnv where
  sdReady : Bool
  openOk : Bool
  writeOk : Bool
  mqttSet : Bool
  now : Nat

/-- Messages published during one call: (topic, payload). -/
abbrev PubMsg := String × List Char

/-- Embedding of `AudioManager::handleAudioChunk(mqtt, payload, length)`
(src/unnamed/part_003, lines 1332-1468).  Returns the new transfer
state, the list of MQTT messages published during the call (in order),
and the handler's boolean result.  `payload` is the raw MQTT payload as
a character/byte list. -/
def handleAudioChunk (st : TransferState) (payload : List Char) (env : ChunkEnv) :
    TransferState × List PubMsg × Bool :=
  if env.sdReady = false then (st, [], true)
  -- ---------- START: expected size[:uuid] ----------
  else if 6 < payload.length ∧ payload.take 6 = "START:".toList then
    let num := payload.drop 6
    let colonPos := num.findIdx? (fun c => c == ':')
    let parsed :=
      match colonPos with
      | some j =>
        (intToSize (atoiChars (num.take j)),
         "/sound_".toList ++ num.drop (j + 1) ++ ".mp3".toList)
      | none => (intToSize (atoiChars num), "/uploaded.mp3".toList)
    let st1 := { st with expectedSize := parsed.1, recvFilename := parsed.2,
                         receivedSize := 0 }
    if env.openOk = false then
      ({ st1 with receivingFile := false }, [], true)
    else
      ({ st1 with receivingFile := true, fileOpen := true, fileData := [],
                  lastChunkTime := env.now }, [], true)
  -- ---------- CHUNK: header then raw bytes ----------
  else if 6 < payload.length ∧ payload.take 6 = "CHUNK:".toList then
    if st.receivingFile = false then (st, [], true)
    else
      match findTwoColons payload with
      | none => (st, [], true)
      | some (firstColon, secondColon) =>
        let chunkIndex := parseNumberFromPayload payload 6 firstColon
        let headerLen := secondColon + 1
        let rawLen : Int := (payload.length : Int) - (headerLen : Int)
        if 0 < rawLen then
          if env.writeOk = false then
            ({ st with receivingFile := false, fileOpen := false }, [], true)
          else
            ({ st with fileData := st.fileData ++ payload.drop headerLen,
                       receivedSize := st.receivedSize + rawLen.toNat,
                       lastChunkTime := env.now },
             [(TOPIC_ACK, "ACK:".toList ++ intDecimal chunkIndex)], true)
        else (st, [], true)
  -- ---------- END ----------
  else if payload.length = 3 ∧ payload = "END".toList then
    if st.receivingFile = true then
      ({ st with receivingFile := false, fileOpen := false },
       if env.mqttSet then [(TOPIC_RESPONSE, "UPLOAD_COMPLETE".toList)] else [],
       true)
    else (st, [], true)
  else (st, [], false)

/-- Folding a message sequence through `handleAudioChunk` under a fixed
environment, collecting all published messages in order. -/
def runTransfer (st : TransferState) (env : ChunkEnv) :
    List (List Char) → TransferState × List PubMsg
  | [] => (st, [])
  | m :: ms =>
    let r := handleAudioChunk st m env
    let rest := runTransfer r.1 env ms
    (rest.1, r.2.1 ++ rest.2)

/-- The transfer state at boot: fields as the constructor initialiser
list of src/unnamed/part_003 sets them (`receivingFile{false}`,
`expectedSize{0}`, `receivedSize{0}`, `lastChunkTime{0}`), with the
default destination filename and no open file. -/
def initialTransferState : TransferState :=
  { receivingFile := false, expectedSize := 0, receivedSize := 0,
    recvFilename := "/sound.mp3".toList, lastChunkTime := 0,
    fileOpen := false, fileData := [] }

/-- The all-services-available environment: SD ready, opens and writes
succeed, MQTT manager wired up. -/
def benignEnv : ChunkEnv :=
  { sdReady := true, openOk := true, writeOk := true, mqttSet := true, now := 7 }

/-- Whether a payload takes the `START:` branch of `handleAudioChunk`. -/
def isStartMsg (payload : List Char) : Bool :=
  decide (6 < payload.length) && decide (payload.take 6 = "START:".toList)

/-- Upper bound on how much one message can add to `receivedSize`: the
raw byte count of a well-formed chunk, 0 for anything else. -/
def chunkBytes (payload : List Char) : Nat :=
  if 6 < payload.length ∧ payload.take 6 = "CHUNK:".toList then
    match findTwoColons payload with
    | some (_, secondColon) => payload.length - (secondColon + 1)
    | none => 0
  else 0

/-- The `ACK`-topic payloads among a publication list. -/
def ackPayloads (msgs : List PubMsg) : List (List Char) :=
  (msgs.filter (fun m => m.1 = TOPIC_ACK)).map (fun m => m.2)

/-- Payload of one chunk message of the ten-chunk demonstration
transfer: `CHUNK:<i>:10:abc` (three raw bytes per chunk). -/
def demoChunk (i : Nat) : List Char :=
  "CHUNK:".toList ++ Nat.toDigits 10 i ++ ":10:".toList ++ "abc".toList

/-- A complete stop-and-wait transfer: `START:30`, ten chunks with
indices 0..9, then `END`. -/
def demoTransferMsgs : List (List Char) :=
  "START:30".toList :: (List.range 10).map demoChunk ++ ["END".toList]

/-! ## Playback query (AudioManager::playing, src/unnamed/part_003) -/

/-- The MP3 decoder object as far as `playing()` observes it: whether
`isRunning()` reports true. -/
structure DecoderState where
  running : Bool
  deriving DecidableEq, Repr

/-- Playback-session state of the SD-card `AudioManager`: initialisation
flag, `isPlaying` flag, the owned decoder instance (`mp3`, null when
absent) and the output volume.  The recursive mutex is a no-op in this
single-threaded model. -/
structure AudioSession where
  initialized : Bool
  isPlaying : Bool
  mp3 : Option DecoderState
  currentVolume : Float

/-- Embedding of `AudioManager::playing()` (src/unnamed/part_003, lines
1217-1233): returns the reported playing status together with the
session state after the call (the final branch clears `isPlaying`). -/
def playingQuery (st : AudioSession) : Bool × AudioSession :=
  if st.initialized = false ∨ st.isPlaying = false then
    (false, st)
  else if (match st.mp3 with | some d => d.running | none => false) = true then
    (true, st)
  else
    (false, { st with isPlaying := false })

/-- Whether the decoder pointer is non-null and reports running
(`mp3 && mp3->isRunning()`). -/
def decoderRunning (st : AudioSession) : Bool :=
  match st.mp3 with
  | some d => d.running
  | none => false

/-- The two equal-priority handlers the gateway actually registers
(`AudioManager::registerMQTTHandlers`, both at priority 150). -/
def handlerAudioRequest : MQTTHandler :=
  { topicPattern := "esp32/audio_request".toList,
    name := "AudioRequest".toList, priority := 150 }

/-- Second registered handler, also at priority 150. -/
def handlerAudioChunk : MQTTHandler :=
  { topicPattern := "esp32/audio_chunk".toList,
    name := "AudioChunk".toList, priority := 150 }

/-! ## Theorems -/

/-- C4: For every incoming packet, the jitter-buffer producer either
writes the full two-byte little-endian length header plus all payload
bytes, or — exactly when free space is under `header_size + length` —
drops the packet entirely writing nothing; a push never partially
succeeds, a drop leaves every previously buffered byte untouched, and
the call always returns normally (drop is not a fatal error). -/
theorem wsPushBin_push_atomic (buf payload : List Nat) :
    ((wsPushBin buf payload).2 = true ∧
      (wsPushBin buf payload).1 = buf ++ encodedPacket payload ∧
      PACKET_HEADER_SIZE + payload.length ≤ BUFFER_SIZE_BYTES - buf.length) ∨
    ((wsPushBin buf payload).2 = false ∧
      (wsPushBin buf payload).1 = buf ∧
      BUFFER_SIZE_BYTES - buf.length < PACKET_HEADER_SIZE + payload.length) := by
  by_cases hspace :
      BUFFER_SIZE_BYTES - buf.length < PACKET_HEADER_SIZE + payload.length
  · right
    refine ⟨?_, ?_, hspace⟩ <;>
      simp [wsPushBin, hspace]
  · left
    have hlen : buf.length + 2 + payload.length ≤ BUFFER_SIZE_BYTES := by
      simp only [PACKET_HEADER_SIZE, BUFFER_SIZE_BYTES] at hspace ⊢
      omega
    have hspace2 : ¬ (BUFFER_SIZE_BYTES - buf.length < 2 + payload.length) := by
      simpa [PACKET_HEADER_SIZE] using hspace
    have hhdr : (packetHeader payload.length).length = 2 := by
      simp [packetHeader]
    have hm2 : (2 : Nat) ⊓ (BUFFER_SIZE_BYTES - buf.length) = 2 := by
      simp only [BUFFER_SIZE_BYTES] at hlen ⊢
      omega
    have hm2b : ¬ (BUFFER_SIZE_BYTES - buf.length < 2) := by
      simp only [BUFFER_SIZE_BYTES] at hlen ⊢
      omega
    have hc2 : ¬ (BUFFER_SIZE_BYTES - (buf.length + 2) < payload.length) := by
      simp only [BUFFER_SIZE_BYTES] at hlen ⊢
      omega
    have hminL : payload.length ⊓ (BUFFER_SIZE_BYTES - (buf.length + 2)) = payload.length := by
      simp only [BUFFER_SIZE_BYTES] at hlen ⊢
      omega
    have htake2 : List.take 2 (packetHeader payload.length) = packetHeader payload.length := by
      rw [show (2 : Nat) = (packetHeader payload.length).length from hhdr.symm]
      exact List.take_length _
    refine ⟨?_, ?_, by omega⟩ <;>
      simp [wsPushBin, hspace, hspace2, sbSend, hm2, hm2b, hc2, hminL, htake2, encodedPacket,
        List.append_assoc, PACKET_HEADER_SIZE, List.take_length, hhdr]

/-- C9 counterexample: `playing()` is not a pure query.  On a session
that is initialized and flagged as playing but whose decoder reports
stopped, the call returns false and mutates the session: the `isPlaying`
field goes from `true` to `false`.  This refutes the claim that calling
`playing()` leaves every field of the audio session unchanged. -/
theorem playingQuery_mutates_counterexample :
    (AudioSession.mk true true (some (DecoderState.mk false)) 0.5).isPlaying = true ∧
    ((playingQuery
        (AudioSession.mk true true (some (DecoderState.mk false)) 0.5)).2).isPlaying
        = false := by
  constructor <;> rfl

/-- C9 (amended): `playing()` returns true iff the session is
initialized, the `isPlaying` flag is set, and the decoder instance
exists and reports still-running.  The call leaves the `initialized`
flag, the decoder instance and the volume unchanged; `isPlaying` is
also unchanged except in one case: when the session was initialized and
flagged playing but the decoder no longer reports running, the call
clears `isPlaying` to false (a cache update — the only mutation). -/
theorem playingQuery_spec (st : AudioSession) :
    (playingQuery st).1 = (st.initialized && st.isPlaying && decoderRunning st) ∧
    ((playingQuery st).2).initialized = st.initialized ∧
    ((playingQuery st).2).mp3 = st.mp3 ∧
    ((playingQuery st).2).currentVolume = st.currentVolume ∧
    ((playingQuery st).2).isPlaying =
      (st.isPlaying && (!st.initialized || decoderRunning st)) := by
  obtain ⟨i, p, m, v⟩ := st
  rcases m with _ | ⟨_ | _⟩ <;> cases i <;> cases p <;>
    simp [playingQuery, decoderRunning]

/-- C7: A `CHUNK`-prefixed message is rejected whenever the transfer is
not in receiving state (no preceding `START`) or its header lacks two
colons after the prefix: the handler claims the message (returns true)
but writes nothing to the destination file, publishes nothing, and
leaves the entire transfer state — including `receivedSize` — exactly
unchanged. -/
theorem chunk_rejected_without_start (st : TransferState) (payload : List Char)
    (env : ChunkEnv) (hsd : env.sdReady = true)
    (hchunk : 6 < payload.length ∧ payload.take 6 = "CHUNK:".toList)
    (hrej : st.receivingFile = false ∨ findTwoColons payload = none) :
    handleAudioChunk st payload env = (st, [], true) := by
  have hnotstart : ¬ (6 < payload.length ∧ payload.take 6 = "START:".toList) := by
    rintro ⟨-, h⟩
    rw [hchunk.2] at h
    simp at h
  rcases hrej with hrecv | hcols
  · simp [handleAudioChunk, hsd, hchunk, hnotstart, hrecv]
  · rcases h : st.receivingFile with _ | _ <;>
      simp [handleAudioChunk, hsd, hchunk, hnotstart, h, hcols]

/-- C7 witness: a concrete chunk arriving in the idle boot state is
rejected with no state mutation. -/
theorem chunk_rejected_without_start_witness :
    benignEnv.sdReady = true ∧
    (6 < ("CHUNK:0:1:ab".toList).length ∧
      ("CHUNK:0:1:ab".toList).take 6 = "CHUNK:".toList) ∧
    initialTransferState.receivingFile = false ∧
    handleAudioChunk initialTransferState ("CHUNK:0:1:ab".toList) benignEnv =
      (initialTransferState, [], true) :=
  ⟨by decide, ⟨by decide, by decide⟩, by decide,
    chunk_rejected_without_start initialTransferState ("CHUNK:0:1:ab".toList)
      benignEnv (by decide) ⟨by decide, by decide⟩ (Or.inl (by decide))⟩

/-- C8: Sending `END` twice in a row is safe, and the first `END` is
unconditional.  Conjuncts: (1) an `END` received in receiving state
closes the destination and finalizes the transfer regardless of whether
`receivedSize` equals `expectedSize` (no hypothesis relates them —
a mismatch only changes what is logged); (2) an `END` received outside
receiving state is a pure no-op that closes no file, changes no state,
and publishes nothing; (3) consequently a second consecutive `END` is a
no-op on the state left by the first. -/
theorem end_twice_safe (st : TransferState) (env : ChunkEnv)
    (hsd : env.sdReady = true) :
    (st.receivingFile = true →
      handleAudioChunk st ("END".toList) env =
        ({ st with receivingFile := false, fileOpen := false },
         if env.mqttSet = true then [(TOPIC_RESPONSE, "UPLOAD_COMPLETE".toList)] else [],
         true)) ∧
    (st.receivingFile = false →
      handleAudioChunk st ("END".toList) env = (st, [], true)) ∧
    (handleAudioChunk (handleAudioChunk st ("END".toList) env).1 ("END".toList) env =
      ((handleAudioChunk st ("END".toList) env).1, [], true)) := by
  refine ⟨?_, ?_, ?_⟩
  · intro hrecv
    simp [handleAudioChunk, hsd, hrecv]
  · intro hrecv
    simp [handleAudioChunk, hsd, hrecv]
  · rcases h : st.receivingFile with _ | _ <;>
      simp [handleAudioChunk, hsd, h]

/-- C8 witness: with a receiving-state transfer whose byte counts
disagree (3 received of 10 expected), the first `END` still finalizes
and the second is a no-op. -/
theorem end_twice_safe_witness :
    benignEnv.sdReady = true ∧
    (let st : TransferState :=
      { receivingFile := true, expectedSize := 10, receivedSize := 3,
        recvFilename := "/uploaded.mp3".toList, lastChunkTime := 0,
        fileOpen := true, fileData := "abc".toList }
     (st.receivingFile = true →
        handleAudioChunk st ("END".toList) benignEnv =
          ({ st with receivingFile := false, fileOpen := false },
           if benignEnv.mqttSet = true then
             [(TOPIC_RESPONSE, "UPLOAD_COMPLETE".toList)] else [],
           true)) ∧
      (st.receivingFile = false →
        handleAudioChunk st ("END".toList) benignEnv = (st, [], true)) ∧
      (handleAudioChunk (handleAudioChunk st ("END".toList) benignEnv).1
          ("END".toList) benignEnv =
        ((handleAudioChunk st ("END".toList) benignEnv).1, [], true))) :=
  ⟨by decide,
    end_twice_safe
      { receivingFile := true, expectedSize := 10, receivedSize := 3,
        recvFilename := "/uploaded.mp3".toList, lastChunkTime := 0,
        fileOpen := true, fileData := "abc".toList }
      benignEnv (by decide)⟩

/-- C10: A `CHUNK` message processed in receiving state whose payload
holds zero raw data bytes after the second colon is claimed (the
handler returns true) but causes no file write, no change to
`receivedSize` or `lastChunkTime` (the state is exactly unchanged), and
no `ACK` publication — the stop-and-wait uploader gets no ACK for it. -/
theorem empty_chunk_no_ack (st : TransferState) (payload : List Char)
    (env : ChunkEnv) (hsd : env.sdReady = true)
    (hrecv : st.receivingFile = true)
    (hchunk : 6 < payload.length ∧ payload.take 6 = "CHUNK:".toList)
    (c1 c2 : Nat) (hcols : findTwoColons payload = some (c1, c2))
    (hraw : payload.length ≤ c2 + 1) :
    handleAudioChunk st payload env = (st, [], true) := by
  have hnotstart : ¬ (6 < payload.length ∧ payload.take 6 = "START:".toList) := by
    rintro ⟨-, h⟩
    rw [hchunk.2] at h
    simp at h
  simp only [handleAudioChunk, hsd, hchunk, hnotstart, hrecv, hcols]
  have hneg : ¬ (0 < (payload.length : Int) - ((c2 : Int) + 1)) := by
    have h2 : (payload.length : Int) ≤ (c2 : Int) + 1 := by
      exact_mod_cast hraw
    omega
  simp [hneg]

/-- C10 witness: the concrete zero-payload chunk `CHUNK:3:10:` in a
receiving state produces no write, no state change and no ACK. -/
theorem empty_chunk_no_ack_witness :
    benignEnv.sdReady = true ∧
    (let st : TransferState :=
      { receivingFile := true, expectedSize := 10, receivedSize := 0,
        recvFilename := "/uploaded.mp3".toList, lastChunkTime := 0,
        fileOpen := true, fileData := [] }
     st.receivingFile = true ∧
     findTwoColons ("CHUNK:3:10:".toList) = some (7, 10) ∧
     handleAudioChunk st ("CHUNK:3:10:".toList) benignEnv = (st, [], true)) :=
  ⟨by decide, by decide, by decide,
    empty_chunk_no_ack
      { receivingFile := true, expectedSize := 10, receivedSize := 0,
        recvFilename := "/uploaded.mp3".toList, lastChunkTime := 0,
        fileOpen := true, fileData := [] }
      ("CHUNK:3:10:".toList) benignEnv (by decide) (by decide)
      ⟨by decide, by decide⟩ 7 10 (by decide) (by decide)⟩

/-- C5 counterexample: the invariant `receivedSize ≤ expectedSize` does
not hold after every sequence of START/CHUNK/END messages.  After
`START:1` followed by a chunk carrying two raw bytes, the handler has
`receivedSize = 2 > 1 = expectedSize`: the code never compares the two
counters, so an uploader sending more bytes than announced breaks the
claimed invariant. -/
theorem receivedSize_invariant_counterexample :
    (runTransfer initialTransferState benignEnv
        ["START:1".toList, "CHUNK:0:1:ab".toList]).1.expectedSize = 1 ∧
    (runTransfer initialTransferState benignEnv
        ["START:1".toList, "CHUNK:0:1:ab".toList]).1.receivedSize = 2 := by
  constructor <;> decide

/-- One `handleAudioChunk` call on a non-`START` message never changes
`expectedSize` and increases `receivedSize` by at most the raw byte
count of the message. -/
theorem handleAudioChunk_non_start_bound (st : TransferState) (m : List Char)
    (env : ChunkEnv) (h : isStartMsg m = false) :
    (handleAudioChunk st m env).1.expectedSize = st.expectedSize ∧
    (handleAudioChunk st m env).1.receivedSize ≤ st.receivedSize + chunkBytes m := by
  have hns : ¬ (6 < m.length ∧ m.take 6 = "START:".toList) := by
    intro hc
    simp [isStartMsg, hc.1, hc.2] at h
  by_cases hsd : env.sdReady = false
  · simp [handleAudioChunk, hsd]
  · by_cases hch : 6 < m.length ∧ m.take 6 = "CHUNK:".toList
    · by_cases hrecv : st.receivingFile = false
      · simp [handleAudioChunk, hsd, hns, hch, hrecv]
      · rcases hcols : findTwoColons m with _ | ⟨c1, c2⟩
        · simp [handleAudioChunk, hsd, hns, hch, hrecv, hcols]
        · by_cases hpos : ((c2 : Int) + 1 < (m.length : Int))
          · by_cases hw : env.writeOk = false
            · simp [handleAudioChunk, hsd, hns, hch, hrecv, hcols, hpos, hw]
            · have hb : ((m.length : Int) - ((c2 : Int) + 1)).toNat ≤ chunkBytes m := by
                simp only [chunkBytes, hch, hcols, and_self, if_true]
                omega
              have hgoal :
                  (handleAudioChunk st m env).1.expectedSize = st.expectedSize ∧
                  (handleAudioChunk st m env).1.receivedSize =
                    st.receivedSize + ((m.length : Int) - ((c2 : Int) + 1)).toNat := by
                simp [handleAudioChunk, hsd, hns, hch, hrecv, hcols, hpos, hw]
              refine ⟨hgoal.1, ?_⟩
              rw [hgoal.2]
              omega
          · simp [handleAudioChunk, hsd, hns, hch, hrecv, hcols, hpos]
    · by_cases hend : m.length = 3 ∧ m = "END".toList
      · rcases hrecv : st.receivingFile with _ | _ <;>
          simp [handleAudioChunk, hsd, hns, hch, hend, hrecv]
      · have hch2 : ¬ (6 < m.length ∧ m.take 6 = ("CHUNK:".toList)) := hch
        have hend2 : ¬ (m.length = 3 ∧ m = ("END".toList)) := hend
        have hres : handleAudioChunk st m env = (st, [], false) := by
          simp only [handleAudioChunk]
          rw [if_neg (by simp [hsd] : ¬ env.sdReady = false)]
          rw [if_neg (by simpa using hns), if_neg (by simpa using hch2),
            if_neg (by simpa using hend2)]
        rw [hres]
        exact ⟨rfl, Nat.le_add_right _ _⟩

/-- C5 (amended): `receivedSize` is bounded by the starting count plus
the total raw bytes carried by the delivered chunk messages, and
`expectedSize` is untouched by non-`START` traffic; hence the claimed
invariant `receivedSize ≤ expectedSize` holds after any sequence of
non-`START` messages exactly when the uploader delivers at most
`expectedSize - receivedSize` further raw bytes — the handler itself
never enforces the bound. -/
theorem receivedSize_bounded (st : TransferState) (env : ChunkEnv)
    (msgs : List (List Char))
    (hns : ∀ m ∈ msgs, isStartMsg m = false)
    (hbound : st.receivedSize + (msgs.map chunkBytes).sum ≤ st.expectedSize) :
    (runTransfer st env msgs).1.receivedSize ≤
      (runTransfer st env msgs).1.expectedSize := by
  induction msgs generalizing st with
  | nil =>
    simp [runTransfer]
    simpa using hbound
  | cons m ms ih =>
    have hstep := handleAudioChunk_non_start_bound st m env (hns m (by simp))
    simp only [runTransfer]
    apply ih
    · intro x hx
      exact hns x (by simp [hx])
    · rw [hstep.1]
      simp only [List.map_cons, List.sum_cons] at hbound
      omega

/-- C5 witness: a receiving transfer expecting 10 bytes stays within
its budget after one 3-byte chunk. -/
theorem receivedSize_bounded_witness :
    (∀ m ∈ ["CHUNK:0:10:abc".toList], isStartMsg m = false) ∧
    (let st : TransferState :=
      { receivingFile := true, expectedSize := 10, receivedSize := 0,
        recvFilename := "/uploaded.mp3".toList, lastChunkTime := 0,
        fileOpen := true, fileData := [] }
     st.receivedSize + (["CHUNK:0:10:abc".toList].map chunkBytes).sum ≤ st.expectedSize ∧
     (runTransfer st benignEnv ["CHUNK:0:10:abc".toList]).1.receivedSize ≤
       (runTransfer st benignEnv ["CHUNK:0:10:abc".toList]).1.expectedSize) :=
  ⟨by decide, by decide,
    receivedSize_bounded
      { receivingFile := true, expectedSize := 10, receivedSize := 0,
        recvFilename := "/uploaded.mp3".toList, lastChunkTime := 0,
        fileOpen := true, fileData := [] }
      benignEnv ["CHUNK:0:10:abc".toList] (by decide) (by decide)⟩

/-- C6: After every successful write of a chunk's raw bytes the
receiver publishes exactly one `ACK:<index>` message on the
acknowledgment topic, with the index parsed from that chunk's header
(first conjunct: the publication list of the call is exactly that one
message, and the message is claimed).  Concretely, the full ten-chunk
transfer `START:30`, `CHUNK:0:10:abc` … `CHUNK:9:10:abc`, `END`
publishes exactly ten ACKs with indices 0–9 in order (second
conjunct). -/
theorem chunk_ack_per_write (st : TransferState) (payload : List Char)
    (env : ChunkEnv) (hsd : env.sdReady = true) (hw : env.writeOk = true)
    (hrecv : st.receivingFile = true)
    (hchunk : 6 < payload.length ∧ payload.take 6 = "CHUNK:".toList)
    (c1 c2 : Nat) (hcols : findTwoColons payload = some (c1, c2))
    (hraw : c2 + 1 < payload.length) :
    ((handleAudioChunk st payload env).2 =
      ([(TOPIC_ACK, "ACK:".toList ++
          intDecimal (parseNumberFromPayload payload 6 c1))], true)) ∧
    ackPayloads (runTransfer initialTransferState benignEnv demoTransferMsgs).2 =
      ["ACK:0".toList, "ACK:1".toList, "ACK:2".toList, "ACK:3".toList,
       "ACK:4".toList, "ACK:5".toList, "ACK:6".toList, "ACK:7".toList,
       "ACK:8".toList, "ACK:9".toList] := by
  constructor
  · have hnotstart : ¬ (6 < payload.length ∧ payload.take 6 = "START:".toList) := by
      rintro ⟨-, h⟩
      rw [hchunk.2] at h
      simp at h
    have hpos : 0 < (payload.length : Int) - ((c2 : Int) + 1) := by
      have h2 : ((c2 : Int) + 1) < (payload.length : Int) := by
        exact_mod_cast hraw
      omega
    simp [handleAudioChunk, hsd, hw, hnotstart, hchunk, hrecv, hcols, hpos]
  · decide

/-- C6 witness: the concrete chunk `CHUNK:4:10:abc` received in a
receiving state yields exactly the publication `ACK:4`. -/
theorem chunk_ack_per_write_witness :
    benignEnv.sdReady = true ∧ benignEnv.writeOk = true ∧
    findTwoColons ("CHUNK:4:10:abc".toList) = some (7, 10) ∧
    ((handleAudioChunk
        { receivingFile := true, expectedSize := 30, receivedSize := 0,
          recvFilename := "/uploaded.mp3".toList, lastChunkTime := 0,
          fileOpen := true, fileData := [] }
        ("CHUNK:4:10:abc".toList) benignEnv).2 =
      ([(TOPIC_ACK, "ACK:".toList ++
          intDecimal (parseNumberFromPayload ("CHUNK:4:10:abc".toList) 6 7))], true)) :=
  ⟨by decide, by decide, by decide,
    (chunk_ack_per_write
      { receivingFile := true, expectedSize := 30, receivedSize := 0,
        recvFilename := "/uploaded.mp3".toList, lastChunkTime := 0,
        fileOpen := true, fileData := [] }
      ("CHUNK:4:10:abc".toList) benignEnv (by decide) (by decide) (by decide)
      ⟨by decide, by decide⟩ 7 10 (by decide) (by decide)).1⟩

/-- C2 counterexample: the handler table is not guaranteed to keep
equal-priority handlers in registration order.  Registering
`handlerAudioRequest` and then `handlerAudioChunk` (both priority 150,
exactly as the gateway does) can legally leave the table
`[handlerAudioChunk, handlerAudioRequest]`, because `std::sort` is not
a stable sort: that table is a permutation of the input sorted by
descending priority, yet the first-registered handler sits after the
second.  This refutes the claim for the reachable table shown. -/
theorem registration_tie_order_counterexample :
    RegReaches [handlerAudioRequest, handlerAudioChunk]
      [handlerAudioChunk, handlerAudioRequest] ∧
    ¬ TiesInRegOrder [handlerAudioRequest, handlerAudioChunk]
      [handlerAudioChunk, handlerAudioRequest] := by
  constructor
  · have h1 : RegReaches [handlerAudioRequest] [handlerAudioRequest] := by
      have := @RegReaches.step [] [] handlerAudioRequest [handlerAudioRequest]
        RegReaches.nil ⟨by decide, by decide⟩
      simpa using this
    have h2 := @RegReaches.step [handlerAudioRequest] [handlerAudioRequest]
      handlerAudioChunk [handlerAudioChunk, handlerAudioRequest] h1
      ⟨List.Perm.swap _ _ _, by decide⟩
    simpa using h2
  · intro hties
    have := hties 0 1 (by decide) (by decide) (by decide) (by decide)
    revert this
    decide

/-- C2 (amended): after every sequence of `registerHandler` calls the
handler table is totally ordered by priority descending and holds
exactly the registered handlers (it is a permutation of the
registration sequence); the relative order of equal-priority handlers,
however, is whatever the unstable `std::sort` produced and is not
guaranteed to be the registration order. -/
theorem registration_table_sorted (regs table : List MQTTHandler)
    (h : RegReaches regs table) :
    table.Pairwise (fun a b => b.priority ≤ a.priority) ∧ table.Perm regs := by
  induction h with
  | nil => exact ⟨List.Pairwise.nil, List.Perm.refl []⟩
  | step hreach hsort ih =>
    exact ⟨hsort.2, hsort.1.trans (ih.2.append_right _)⟩

/-- C2 witness: the singleton registration sequence reaches the
singleton table, which is sorted and complete. -/
theorem registration_table_sorted_witness :
    RegReaches [handlerAudioRequest] [handlerAudioRequest] ∧
    ([handlerAudioRequest] : List MQTTHandler).Pairwise
      (fun a b => b.priority ≤ a.priority) ∧
    ([handlerAudioRequest] : List MQTTHandler).Perm [handlerAudioRequest] := by
  have h1 : RegReaches [handlerAudioRequest] [handlerAudioRequest] := by
    have := @RegReaches.step [] [] handlerAudioRequest [handlerAudioRequest]
      RegReaches.nil ⟨by decide, by decide⟩
    simpa using this
  exact ⟨h1, registration_table_sorted [handlerAudioRequest] [handlerAudioRequest] h1⟩

/-- One step never changes the session-identity fields of the streaming
state (mode, decoder presence, buffer presence). -/
theorem streamStep_frame (st : StreamState) (ev : StreamEv) :
    (streamStep st ev).1.currentState = st.currentState ∧
    (streamStep st ev).1.opusDecoderPresent = st.opusDecoderPresent ∧
    (streamStep st ev).1.bufferPresent = st.bufferPresent := by
  rcases ev with p | d
  · exact ⟨rfl, rfl, rfl⟩
  · by_cases hpre : st.prerollComplete = false <;>
      · simp [streamStep, processStreamingAudio, hpre]
        split_ifs <;> simp

/-- One step never clears an open pre-roll gate. -/
theorem streamStep_preroll_mono (st : StreamState) (ev : StreamEv)
    (h : st.prerollComplete = true) :
    (streamStep st ev).1.prerollComplete = true := by
  rcases ev with p | d
  · exact h
  · simp [streamStep, processStreamingAudio, h]
    split_ifs <;> simp [h]

/-- A live advance with the gate closed and the buffer under the
trigger threshold writes one silence frame and changes nothing. -/
theorem advance_below_threshold (st : StreamState) (d : Int)
    (hlive : SessionLive st) (hpre : st.prerollComplete = false)
    (hlt : st.buffer.length < PREROLL_MIN_BYTES) :
    processStreamingAudio st d = (st, AudioOut.silence) := by
  obtain ⟨hs, hd, hb⟩ := hlive
  simp [processStreamingAudio, hs, hd, hb, hpre, hlt]

/-- A live advance with the gate closed and the buffer at or above the
trigger threshold opens the gate. -/
theorem advance_at_threshold (st : StreamState) (d : Int)
    (hlive : SessionLive st) (hpre : st.prerollComplete = false)
    (hge : PREROLL_MIN_BYTES ≤ st.buffer.length) :
    (processStreamingAudio st d).1.prerollComplete = true := by
  obtain ⟨hs, hd, hb⟩ := hlive
  have hnlt : ¬ st.buffer.length < PREROLL_MIN_BYTES := by omega
  simp [processStreamingAudio, hs, hd, hb, hpre, hnlt]
  split_ifs <;> simp

/-- The gate opens across one step only at an advance on a buffer that
reached the trigger threshold. -/
theorem streamStep_flip (st : StreamState) (ev : StreamEv)
    (hpre : st.prerollComplete = false)
    (hflip : (streamStep st ev).1.prerollComplete = true) :
    (∃ d, ev = StreamEv.advance d) ∧ PREROLL_MIN_BYTES ≤ st.buffer.length := by
  rcases ev with p | d
  · simp only [streamStep] at hflip
    rw [hpre] at hflip
    cases hflip
  · refine ⟨⟨d, rfl⟩, ?_⟩
    by_contra hlt
    push_neg at hlt
    have hns : processStreamingAudio st d = (st, AudioOut.noOutput) ∨
        processStreamingAudio st d = (st, AudioOut.silence) := by
      by_cases hguard : st.currentState ≠ AudioState.streaming ∨ st.opusDecoderPresent = false
      · left
        simp [processStreamingAudio, hguard]
      · by_cases hbuf : st.bufferPresent = false
        · left
          simp [processStreamingAudio, hguard, hbuf]
        · right
          push_neg at hguard
          refine advance_below_threshold st d ⟨hguard.1, ?_, ?_⟩ hpre hlt
          · cases h2 : st.opusDecoderPresent with
            | false => exact absurd h2 hguard.2
            | true => rfl
          · cases h3 : st.bufferPresent with
            | false => exact absurd h3 hbuf
            | true => rfl
    rcases hns with hcase | hcase <;>
      · simp only [streamStep, hcase] at hflip
        rw [hpre] at hflip
        cases hflip

/-- Unfolding `stateAt` across the event at position `n`. -/
theorem stateAt_succ_of_get (st : StreamState) (evs : List StreamEv) (n : Nat)
    (e : StreamEv) (h : evs[n]? = some e) :
    stateAt st evs (n + 1) = (streamStep (stateAt st evs n) e).1 := by
  simp only [stateAt, List.take_succ, h, Option.toList_some, List.foldl_append,
    List.foldl_cons, List.foldl_nil]

/-- Beyond the end of the event list the trajectory is constant. -/
theorem stateAt_succ_of_none (st : StreamState) (evs : List StreamEv) (n : Nat)
    (h : evs[n]? = none) :
    stateAt st evs (n + 1) = stateAt st evs n := by
  simp only [stateAt, List.take_succ, h, Option.toList_none, List.append_nil]

/-- Liveness of the session is preserved along any event fold. -/
theorem sessionLive_foldl (l : List StreamEv) (st : StreamState)
    (h : SessionLive st) : SessionLive (l.foldl (fun s e => (streamStep s e).1) st) := by
  induction l generalizing st with
  | nil => exact h
  | cons e l ih =>
    apply ih
    obtain ⟨h1, h2, h3⟩ := streamStep_frame st e
    exact ⟨h1.trans h.1, h2.trans h.2.1, h3.trans h.2.2⟩

/-- Liveness holds at every point of the trajectory. -/
theorem sessionLive_stateAt (st : StreamState) (evs : List StreamEv) (n : Nat)
    (h : SessionLive st) : SessionLive (stateAt st evs n) :=
  sessionLive_foldl _ _ h

/-- The pre-roll gate is monotone along the trajectory. -/
theorem stateAt_preroll_mono (st : StreamState) (evs : List StreamEv)
    (n m : Nat) (hnm : n ≤ m)
    (h : (stateAt st evs n).prerollComplete = true) :
    (stateAt st evs m).prerollComplete = true := by
  obtain ⟨k, rfl⟩ := Nat.exists_eq_add_of_le hnm
  clear hnm
  induction k with
  | zero => exact h
  | succ k ih =>
    rcases hg : evs[n + k]? with _ | e
    · rw [← Nat.add_assoc, stateAt_succ_of_none st evs (n + k) hg]
      exact ih
    · rw [← Nat.add_assoc, stateAt_succ_of_get st evs (n + k) e hg]
      exact streamStep_preroll_mono _ e ih

/-- C3: Within a live streaming session the pre-roll fill gate is a
one-shot: along any event trajectory (producer pushes and advance
calls) the gate (1) never goes back from open to closed — so it opens
at most once per session; (2) goes from closed to open across step `n`
only when that step is an advance call and the buffered bytes had
reached the trigger threshold; (3) while closed and under the
threshold, an advance call writes exactly one silence frame, decodes
nothing, and leaves the state (including the buffer) untouched;
(4) while closed and at or over the threshold, an advance call opens
the gate. -/
theorem preroll_one_shot_gate (st0 : StreamState) (evs : List StreamEv)
    (n m : Nat) (hlive : SessionLive st0) (hnm : n ≤ m) :
    ((stateAt st0 evs n).prerollComplete = true →
      (stateAt st0 evs m).prerollComplete = true) ∧
    ((stateAt st0 evs n).prerollComplete = false →
      (stateAt st0 evs (n + 1)).prerollComplete = true →
      ((∃ d, evs[n]? = some (StreamEv.advance d)) ∧
        PREROLL_MIN_BYTES ≤ (stateAt st0 evs n).buffer.length)) ∧
    (∀ d, (stateAt st0 evs n).prerollComplete = false →
      (stateAt st0 evs n).buffer.length < PREROLL_MIN_BYTES →
      evs[n]? = some (StreamEv.advance d) →
      processStreamingAudio (stateAt st0 evs n) d =
        (stateAt st0 evs n, AudioOut.silence) ∧
      stateAt st0 evs (n + 1) = stateAt st0 evs n) ∧
    (∀ d, (stateAt st0 evs n).prerollComplete = false →
      PREROLL_MIN_BYTES ≤ (stateAt st0 evs n).buffer.length →
      evs[n]? = some (StreamEv.advance d) →
      (stateAt st0 evs (n + 1)).prerollComplete = true) := by
  refine ⟨stateAt_preroll_mono st0 evs n m hnm, ?_, ?_, ?_⟩
  · intro hpre hopen
    rcases hg : evs[n]? with _ | e
    · rw [stateAt_succ_of_none st0 evs n hg] at hopen
      rw [hpre] at hopen
      cases hopen
    · rw [stateAt_succ_of_get st0 evs n e hg] at hopen
      obtain ⟨⟨d, rfl⟩, hth⟩ := streamStep_flip _ e hpre hopen
      exact ⟨⟨d, rfl⟩, hth⟩
  · intro d hpre hlt hg
    have hsil := advance_below_threshold (stateAt st0 evs n) d
      (sessionLive_stateAt st0 evs n hlive) hpre hlt
    refine ⟨hsil, ?_⟩
    rw [stateAt_succ_of_get st0 evs n _ hg]
    simp [streamStep, hsil]
  · intro d hpre hge hg
    rw [stateAt_succ_of_get st0 evs n _ hg]
    exact advance_at_threshold (stateAt st0 evs n) d
      (sessionLive_stateAt st0 evs n hlive) hpre hge

/-- C3 witness: the session state right after `startStreaming` (gate
closed, empty buffer) with a single under-threshold advance event. -/
theorem preroll_one_shot_gate_witness :
    (SessionLive
      { currentState := AudioState.streaming, opusDecoderPresent := true,
        bufferPresent := true, prerollComplete := false, buffer := [] } ∧
      (0 : Nat) ≤ 1) ∧
    ((stateAt
        { currentState := AudioState.streaming, opusDecoderPresent := true,
          bufferPresent := true, prerollComplete := false, buffer := [] }
        [StreamEv.advance 0] 0).prerollComplete = true →
      (stateAt
        { currentState := AudioState.streaming, opusDecoderPresent := true,
          bufferPresent := true, prerollComplete := false, buffer := [] }
        [StreamEv.advance 0] 1).prerollComplete = true) :=
  ⟨⟨⟨rfl, rfl, rfl⟩, by decide⟩,
    (preroll_one_shot_gate
      { currentState := AudioState.streaming, opusDecoderPresent := true,
        bufferPresent := true, prerollComplete := false, buffer := [] }
      [StreamEv.advance 0] 0 1 ⟨rfl, rfl, rfl⟩ (by decide)).1⟩

/-- C1 counterexample: the matching function does not implement the
specified wildcard semantics.  For the pattern `a/#/c` and topic
`a/b/d` the code returns true — its loop returns early whenever a `#`
segment is followed by `/`, even though the `#` is not the final
pattern segment — while the §4.3 semantics (same segment counts, the
non-final `#` segment must match `b` literally) reject the pair. -/
theorem topicMatches_counterexample :
    topicMatches ("a/#/c".toList) ("a/b/d".toList) = true ∧
    specMatches ("a/#/c".toList) ("a/b/d".toList) = false := by
  constructor <;> decide

/-- Element access commutes with `drop`. -/
theorem getD_drop_add (l : List Char) (i j : Nat) (d : Char) :
    (l.drop i).getD j d = l.getD (i + j) d := by
  induction i generalizing l with
  | zero => simp
  | succ i ih =>
    cases l with
    | nil => simp [List.getD]
    | cons c l2 =>
      simp only [List.drop_succ_cons, Nat.succ_add, List.getD_cons_succ]
      exact ih l2

/-- A nonempty segment list whose final segment is nonempty joins to a
nonempty string. -/
theorem joinSegs_ne_nil (ts : List (List Char)) (h1 : ts ≠ [])
    (h2 : ∀ l, ts.getLast? = some l → l ≠ []) : joinSegs ts ≠ [] := by
  match ts with
  | [] => exact absurd rfl h1
  | [u] =>
    have := h2 u (by simp)
    simpa [joinSegs] using this
  | u :: v :: r =>
    simp [joinSegs]

/-- `findIdx` of the separator on a separator-free prefix followed by a
separator. -/
theorem findIdx_slash_append (s r : List Char) (h : ('/' : Char) ∉ s) :
    (s ++ '/' :: r).findIdx (fun x => x == '/') = s.length := by
  induction s with
  | nil => simp [List.findIdx_cons]
  | cons c s3 ih =>
    simp only [List.mem_cons, not_or] at h
    have hc : (c == '/') = false :=
      beq_eq_false_iff_ne.mpr (fun hc2 => h.1 hc2.symm)
    simp [List.findIdx_cons, hc, ih h.2]

/-- `findIdx` of the separator on a separator-free string is its length. -/
theorem findIdx_slash_none (s : List Char) (h : ('/' : Char) ∉ s) :
    s.findIdx (fun x => x == '/') = s.length := by
  induction s with
  | nil => simp
  | cons c s3 ih =>
    simp only [List.mem_cons, not_or] at h
    have hc : (c == '/') = false :=
      beq_eq_false_iff_ne.mpr (fun hc2 => h.1 hc2.symm)
    simp [List.findIdx_cons, hc, ih h.2]

/-- Dropping a whole leading segment and its separator. -/
theorem drop_seg (s r : List Char) :
    (s ++ '/' :: r).drop (s.length + 1) = r := by
  induction s with
  | nil => simp
  | cons c s3 ih =>
    simp only [List.cons_append, List.length_cons, List.drop_succ_cons]
    exact ih

/-- The cursor-based loop depends only on the suffixes at the cursors:
running `matchLoop` at positions `pi`, `ti` equals running it at the
start of the dropped strings.  (Every quantity the loop body inspects —
bounds checks, character reads, separator search, level extraction —
is a function of the suffixes.) -/
theorem matchLoop_drop (fuel : Nat) : ∀ (p t : List Char) (pi ti : Nat),
    matchLoop fuel p t pi ti = matchLoop fuel (p.drop pi) (t.drop ti) 0 0 := by
  induction fuel with
  | zero =>
    intro p t pi ti
    simp only [matchLoop, List.length_drop]
    exact decide_eq_decide.mpr (by omega)
  | succ fuel ih =>
    intro p t pi ti
    by_cases hg : pi < p.length ∧ ti < t.length
    · have hg2 : 0 < (p.drop pi).length ∧ 0 < (t.drop ti).length := by
        simp only [List.length_drop]
        omega
      rw [matchLoop, matchLoop, if_pos hg, if_pos hg2]
      have hhash : (p.getD pi ' ' = '#' ∧ (pi = p.length - 1 ∨ p.getD (pi + 1) ' ' = '/')) ↔
          ((p.drop pi).getD 0 ' ' = '#' ∧
            (0 = (p.drop pi).length - 1 ∨ (p.drop pi).getD (0 + 1) ' ' = '/')) := by
        rw [getD_drop_add, getD_drop_add, List.length_drop, Nat.add_zero]
        have hb : (pi = p.length - 1) ↔ (0 = p.length - pi - 1) := by omega
        rw [hb]
        simp
      by_cases hc : p.getD pi ' ' = '#' ∧ (pi = p.length - 1 ∨ p.getD (pi + 1) ' ' = '/')
      · rw [if_pos hc, if_pos (hhash.mp hc)]
      · rw [if_neg hc, if_neg (fun h => hc (hhash.mpr h))]
        dsimp only
        have e2 : indexOfFrom p '/' pi =
            pi + (p.drop pi).findIdx (fun x => x == '/') := rfl
        have e1 : indexOfFrom (p.drop pi) '/' 0 =
            (p.drop pi).findIdx (fun x => x == '/') := by
          simp [indexOfFrom]
        have f2 : indexOfFrom t '/' ti =
            ti + (t.drop ti).findIdx (fun x => x == '/') := rfl
        have f1 : indexOfFrom (t.drop ti) '/' 0 =
            (t.drop ti).findIdx (fun x => x == '/') := by
          simp [indexOfFrom]
        have e3 : substringOf p pi (indexOfFrom p '/' pi) =
            (p.drop pi).take ((p.drop pi).findIdx (fun x => x == '/')) := by
          rw [e2]
          simp only [substringOf, List.drop_take]
          congr 1
          omega
        have e4 : substringOf (p.drop pi) 0 (indexOfFrom (p.drop pi) '/' 0) =
            (p.drop pi).take ((p.drop pi).findIdx (fun x => x == '/')) := by
          rw [e1]
          simp [substringOf]
        have f3 : substringOf t ti (indexOfFrom t '/' ti) =
            (t.drop ti).take ((t.drop ti).findIdx (fun x => x == '/')) := by
          rw [f2]
          simp only [substringOf, List.drop_take]
          congr 1
          omega
        have f4 : substringOf (t.drop ti) 0 (indexOfFrom (t.drop ti) '/' 0) =
            (t.drop ti).take ((t.drop ti).findIdx (fun x => x == '/')) := by
          rw [f1]
          simp [substringOf]
        rw [e3, e4, f3, f4]
        by_cases hcomp : (p.drop pi).take ((p.drop pi).findIdx (fun x => x == '/')) = ['+'] ∨
            (p.drop pi).take ((p.drop pi).findIdx (fun x => x == '/')) =
              (t.drop ti).take ((t.drop ti).findIdx (fun x => x == '/'))
        · rw [if_pos hcomp, if_pos hcomp, ih p t _ _, ih (p.drop pi) (t.drop ti) _ _,
            e2, f2, e1, f1, List.drop_drop, List.drop_drop, Nat.add_assoc, Nat.add_assoc]
        · rw [if_neg hcomp, if_neg hcomp]
    · have hg2 : ¬ (0 < (p.drop pi).length ∧ 0 < (t.drop ti).length) := by
        simp only [List.length_drop]
        omega
      rw [matchLoop, matchLoop, if_neg hg, if_neg hg2]
      simp only [List.length_drop]
      exact decide_eq_decide.mpr (by omega)

/-- The loop realises the §4.3 segment semantics on well-formed joined
segment lists: for a filter whose `#` occurs only as the whole final
segment and does not end in `/`, and a topic that does not end in `/`,
`matchLoop` started at the beginning of the joined strings computes
`specSegMatch` — provided a trailing-`#` filter has no more segments
than the topic. -/
theorem loopSpec : ∀ (ps ts : List (List Char)) (fuel : Nat),
    (joinSegs ps).length < fuel →
    (∀ s ∈ ps, ('/' : Char) ∉ s) →
    (∀ s ∈ ps.dropLast, ('#' : Char) ∉ s) →
    (∀ l, ps.getLast? = some l → l ≠ [] ∧ (l = ['#'] ∨ ('#' : Char) ∉ l)) →
    (∀ s ∈ ts, ('/' : Char) ∉ s) →
    (∀ l, ts.getLast? = some l → l ≠ []) →
    (ps.getLast? = some ['#'] → ps.length ≤ ts.length) →
    matchLoop fuel (joinSegs ps) (joinSegs ts) 0 0 = specSegMatch ps ts := by
  intro ps
  induction ps with
  | nil =>
    intro ts fuel hfuel hp1 hp2 hp3 ht1 ht2 hcount
    obtain ⟨f, rfl⟩ : ∃ f, fuel = f + 1 := ⟨fuel - 1, by omega⟩
    cases ts with
    | nil =>
      simp [joinSegs, matchLoop, specSegMatch]
    | cons u ts2 =>
      have hne : joinSegs (u :: ts2) ≠ [] := joinSegs_ne_nil _ (by simp) ht2
      have hlen : 0 < (joinSegs (u :: ts2)).length := List.length_pos.mpr hne
      have hspec : specSegMatch ([] : List (List Char)) (u :: ts2) = false := by
        simp [specSegMatch]
      rw [hspec]
      show matchLoop (f + 1) (joinSegs []) (joinSegs (u :: ts2)) 0 0 = false
      rw [show joinSegs ([] : List (List Char)) = [] from rfl, matchLoop,
        if_neg (by simp)]
      exact decide_eq_false (by
        intro hcc
        omega)
  | cons s ps2 ih =>
    intro ts fuel hfuel hp1 hp2 hp3 ht1 ht2 hcount
    by_cases hAB : s = ['#'] ∧ ps2 = []
    · obtain ⟨rfl, rfl⟩ := hAB
      have hts : ts ≠ [] := by
        intro h
        subst h
        have := hcount (by simp)
        simp at this
      have htne : joinSegs ts ≠ [] := joinSegs_ne_nil ts hts ht2
      have htlen : 0 < (joinSegs ts).length := List.length_pos.mpr htne
      obtain ⟨f, rfl⟩ : ∃ f, fuel = f + 1 := ⟨fuel - 1, by omega⟩
      have hspec : specSegMatch [['#']] ts = true := by
        simp [specSegMatch]
      rw [hspec]
      show matchLoop (f + 1) (joinSegs [['#']]) (joinSegs ts) 0 0 = true
      have hj : joinSegs [['#']] = ['#'] := rfl
      rw [hj, matchLoop, if_pos ⟨by simp, htlen⟩, if_pos ⟨by simp, Or.inl (by simp)⟩]
    · have hs_ne : ps2 = [] → s ≠ [] := by
        intro h
        subst h
        exact (hp3 s (by simp)).1
      have hs_noslash : ('/' : Char) ∉ s := hp1 s (by simp)
      have hs_nohash : ('#' : Char) ∉ s := by
        cases hps2 : ps2 with
        | nil =>
          subst hps2
          rcases (hp3 s (by simp)).2 with h | h
          · exact absurd ⟨h, rfl⟩ hAB
          · exact h
        | cons v r =>
          apply hp2
          subst hps2
          simp [List.dropLast_cons₂]
      cases ts with
      | nil =>
        have hpne : joinSegs (s :: ps2) ≠ [] := by
          cases hps2 : ps2 with
          | nil => simpa [joinSegs] using hs_ne hps2
          | cons v r => simp [joinSegs]
        have hplen : 0 < (joinSegs (s :: ps2)).length := List.length_pos.mpr hpne
        obtain ⟨f, rfl⟩ : ∃ f, fuel = f + 1 := ⟨fuel - 1, by omega⟩
        have hspec : specSegMatch (s :: ps2) [] = false := by
          simp [specSegMatch, hAB]
        rw [hspec, matchLoop]
        rw [if_neg (by
          rintro ⟨-, hcc⟩
          simp only [joinSegs, List.length_nil] at hcc
          omega)]
        exact decide_eq_false (by
          rintro ⟨hcc, -⟩
          omega)
      | cons u ts2 =>
        have hu_noslash : ('/' : Char) ∉ u := ht1 u (by simp)
        have hpne : joinSegs (s :: ps2) ≠ [] := by
          cases hps2 : ps2 with
          | nil => simpa [joinSegs] using hs_ne hps2
          | cons v r => simp [joinSegs]
        have hplen : 0 < (joinSegs (s :: ps2)).length := List.length_pos.mpr hpne
        have htne : joinSegs (u :: ts2) ≠ [] := joinSegs_ne_nil _ (by simp) ht2
        have htlen : 0 < (joinSegs (u :: ts2)).length := List.length_pos.mpr htne
        have hp_find : (joinSegs (s :: ps2)).findIdx (fun x => x == '/') = s.length := by
          cases ps2 with
          | nil => exact findIdx_slash_none s hs_noslash
          | cons v r => exact findIdx_slash_append s _ hs_noslash
        have hp_take : (joinSegs (s :: ps2)).take s.length = s := by
          cases ps2 with
          | nil => exact List.take_length s
          | cons v r => exact List.take_left s _
        have hp_drop : (joinSegs (s :: ps2)).drop (s.length + 1) = joinSegs ps2 := by
          cases ps2 with
          | nil =>
            show s.drop (s.length + 1) = []
            exact List.drop_eq_nil_of_le (by omega)
          | cons v r => exact drop_seg s _
        have ht_find : (joinSegs (u :: ts2)).findIdx (fun x => x == '/') = u.length := by
          cases ts2 with
          | nil => exact findIdx_slash_none u hu_noslash
          | cons v r => exact findIdx_slash_append u _ hu_noslash
        have ht_take : (joinSegs (u :: ts2)).take u.length = u := by
          cases ts2 with
          | nil => exact List.take_length u
          | cons v r => exact List.take_left u _
        have ht_drop : (joinSegs (u :: ts2)).drop (u.length + 1) = joinSegs ts2 := by
          cases ts2 with
          | nil =>
            show u.drop (u.length + 1) = []
            exact List.drop_eq_nil_of_le (by omega)
          | cons v r => exact drop_seg u _
        have hhead : ¬ (joinSegs (s :: ps2)).getD 0 ' ' = '#' := by
          cases hs : s with
          | nil =>
            cases hps2 : ps2 with
            | nil => exact absurd hs (hs_ne hps2)
            | cons v r =>
              subst hps2
              show ¬ (joinSegs ([] :: v :: r)).getD 0 ' ' = '#'
              simp [joinSegs]
          | cons c s3 =>
            have hc : c ≠ '#' := by
              intro h
              exact hs_nohash (by simp [hs, h])
            cases hps2 : ps2 with
            | nil =>
              subst hps2
              simpa [joinSegs, hs] using hc
            | cons v r =>
              subst hps2
              simpa [joinSegs, hs] using hc
        obtain ⟨f, rfl⟩ : ∃ f, fuel = f + 1 := ⟨fuel - 1, by omega⟩
        rw [matchLoop, if_pos ⟨hplen, htlen⟩,
          if_neg (fun hcc => absurd hcc.1 hhead)]
        dsimp only
        have ip : indexOfFrom (joinSegs (s :: ps2)) '/' 0 = s.length := by
          simp [indexOfFrom, hp_find]
        have it : indexOfFrom (joinSegs (u :: ts2)) '/' 0 = u.length := by
          simp [indexOfFrom, ht_find]
        have sp : substringOf (joinSegs (s :: ps2)) 0
            (indexOfFrom (joinSegs (s :: ps2)) '/' 0) = s := by
          rw [ip]
          simpa [substringOf] using hp_take
        have st : substringOf (joinSegs (u :: ts2)) 0
            (indexOfFrom (joinSegs (u :: ts2)) '/' 0) = u := by
          rw [it]
          simpa [substringOf] using ht_take
        rw [sp, st, ip, it]
        have hrec : matchLoop f (joinSegs (s :: ps2)) (joinSegs (u :: ts2))
            (s.length + 1) (u.length + 1) = specSegMatch ps2 ts2 := by
          rw [matchLoop_drop, hp_drop, ht_drop]
          have hlen2 : (joinSegs ps2).length = (joinSegs (s :: ps2)).length - (s.length + 1) := by
            rw [← hp_drop, List.length_drop]
          apply ih
          · have hs1 : ps2 = [] → 1 ≤ (joinSegs (s :: ps2)).length := fun _ => hplen
            omega
          · intro x hx
            exact hp1 x (by simp [hx])
          · intro x hx
            apply hp2
            cases hps2 : ps2 with
            | nil =>
              subst hps2
              simp at hx
            | cons v r =>
              subst hps2
              simp only [List.dropLast_cons₂, List.mem_cons]
              exact Or.inr hx
          · intro l hl
            apply hp3
            cases hps2 : ps2 with
            | nil =>
              subst hps2
              simp at hl
            | cons v r =>
              subst hps2
              simpa [List.getLast?_cons_cons] using hl
          · intro x hx
            exact ht1 x (by simp [hx])
          · intro l hl
            apply ht2
            cases hts2 : ts2 with
            | nil =>
              subst hts2
              simp at hl
            | cons v r =>
              subst hts2
              simpa [List.getLast?_cons_cons] using hl
          · intro hl
            have hps2ne : ps2 ≠ [] := by
              intro h
              subst h
              simp at hl
            have : (s :: ps2).getLast? = some ['#'] := by
              cases hps2 : ps2 with
              | nil => exact absurd hps2 hps2ne
              | cons v r =>
                subst hps2
                simpa [List.getLast?_cons_cons] using hl
            have := hcount this
            simp only [List.length_cons] at this
            omega
        by_cases hmat : s = ['+'] ∨ s = u
        · rw [if_pos hmat, hrec]
          rcases hmat with hplus | heq
          · simp [specSegMatch, hAB, hplus]
          · by_cases hplus : s = ['+']
            · simp [specSegMatch, hAB, hplus]
            · subst heq
              simp [specSegMatch, hAB, hplus]
        · rw [if_neg hmat]
          push_neg at hmat
          have hsu : decide (s = u) = false := by
            simp [hmat.2]
          simp [specSegMatch, hAB, hmat.1, hsu]

/-- Segment-list matching is reflexive. -/
theorem specSegMatch_self : ∀ l : List (List Char), specSegMatch l l = true := by
  intro l
  induction l with
  | nil => simp [specSegMatch]
  | cons x xs ih =>
    by_cases h1 : x = ['#'] ∧ xs = []
    · simp [specSegMatch, h1]
    · by_cases h2 : x = ['+'] <;> simp [specSegMatch, h1, h2, ih]

/-- Characters of a segment occur in the joined string. -/
theorem mem_joinSegs {x : Char} : ∀ {ps : List (List Char)} {s : List Char},
    s ∈ ps → x ∈ s → x ∈ joinSegs ps := by
  intro ps
  induction ps with
  | nil => intro s h; simp at h
  | cons a l ih =>
    intro s hs hx
    cases l with
    | nil =>
      simp only [List.mem_cons, List.not_mem_nil, or_false] at hs
      subst hs
      simpa [joinSegs] using hx
    | cons b r =>
      show x ∈ a ++ '/' :: joinSegs (b :: r)
      rcases List.mem_cons.mp hs with rfl | hmem
      · exact List.mem_append_left _ hx
      · exact List.mem_append_right _ (List.mem_cons_of_mem _ (ih hmem hx))

/-- Cancellation of the first separator-delimited block. -/
theorem seg_append_inj : ∀ (s u x y : List Char), ('/' : Char) ∉ s →
    ('/' : Char) ∉ u → s ++ '/' :: x = u ++ '/' :: y → s = u ∧ x = y := by
  intro s
  induction s with
  | nil =>
    intro u x y hs hu h
    cases u with
    | nil => simpa using h
    | cons c u2 =>
      simp only [List.nil_append, List.cons_append, List.cons.injEq] at h
      exact absurd (List.mem_cons.mpr (Or.inl h.1)) hu
  | cons c s3 ih =>
    intro u x y hs hu h
    cases u with
    | nil =>
      simp only [List.cons_append, List.nil_append, List.cons.injEq] at h
      exact absurd (List.mem_cons.mpr (Or.inl h.1.symm)) hs
    | cons d u2 =>
      simp only [List.cons_append, List.cons.injEq] at h
      obtain ⟨rfl, h2⟩ := h
      have hs3 : ('/' : Char) ∉ s3 := fun hc => hs (by simp [hc])
      have hu2 : ('/' : Char) ∉ u2 := fun hc => hu (by simp [hc])
      obtain ⟨rfl, rfl⟩ := ih u2 x y hs3 hu2 h2
      exact ⟨rfl, rfl⟩

/-- On nonempty lists of separator-free segments, joining is injective. -/
theorem joinSegs_inj : ∀ (ps ts : List (List Char)), ps ≠ [] → ts ≠ [] →
    (∀ s ∈ ps, ('/' : Char) ∉ s) → (∀ s ∈ ts, ('/' : Char) ∉ s) →
    joinSegs ps = joinSegs ts → ps = ts := by
  intro ps
  induction ps with
  | nil => intro ts h; exact absurd rfl h
  | cons s ps2 ih =>
    intro ts hps hts hp1 ht1 hj
    cases ts with
    | nil => exact absurd rfl hts
    | cons u ts2 =>
      cases hps2 : ps2 with
      | nil =>
        cases hts2 : ts2 with
        | nil =>
          subst hps2 hts2
          simpa [joinSegs] using hj
        | cons v r =>
          subst hps2 hts2
          rw [show joinSegs [s] = s from rfl] at hj
          have : ('/' : Char) ∈ u ++ '/' :: joinSegs (v :: r) :=
            List.mem_append_right _ (by simp)
          rw [show joinSegs (u :: v :: r) = u ++ '/' :: joinSegs (v :: r) from rfl] at hj
          rw [← hj] at this
          exact absurd this (hp1 s (by simp))
      | cons w q =>
        cases hts2 : ts2 with
        | nil =>
          subst hps2 hts2
          rw [show joinSegs [u] = u from rfl] at hj
          have : ('/' : Char) ∈ s ++ '/' :: joinSegs (w :: q) :=
            List.mem_append_right _ (by simp)
          rw [show joinSegs (s :: w :: q) = s ++ '/' :: joinSegs (w :: q) from rfl] at hj
          rw [hj] at this
          exact absurd this (ht1 u (by simp))
        | cons v r =>
          subst hps2 hts2
          rw [show joinSegs (s :: w :: q) = s ++ '/' :: joinSegs (w :: q) from rfl,
            show joinSegs (u :: v :: r) = u ++ '/' :: joinSegs (v :: r) from rfl] at hj
          obtain ⟨rfl, hj2⟩ := seg_append_inj s u _ _ (hp1 s (by simp)) (ht1 u (by simp)) hj
          have := ih (v :: r) (by simp) (by simp)
            (fun z hz => hp1 z (by simp [List.mem_cons] at hz ⊢; tauto))
            (fun z hz => ht1 z (by simp [List.mem_cons] at hz ⊢; tauto)) hj2
          rw [this]

/-- With no wildcard segment in the pattern, segment matching is
list equality. -/
theorem specSegMatch_literal : ∀ (ps ts : List (List Char)),
    (∀ x ∈ ps, ('#' : Char) ∉ x ∧ ('+' : Char) ∉ x) →
    specSegMatch ps ts = decide (ps = ts) := by
  intro ps
  induction ps with
  | nil =>
    intro ts h
    cases ts <;> simp [specSegMatch]
  | cons x xs ih =>
    intro ts h
    have hx1 : x ≠ ['#'] := by
      intro hc
      exact (h x (by simp)).1 (by simp [hc])
    have hx2 : x ≠ ['+'] := by
      intro hc
      exact (h x (by simp)).2 (by simp [hc])
    cases ts with
    | nil => simp [specSegMatch, fun hc => hx1 hc]
    | cons u ts2 =>
      have hrec := ih ts2 (fun z hz => h z (by simp [hz]))
      by_cases hxu : x = u
      · subst hxu
        simp [specSegMatch, hx1, hx2, hrec]
      · simp [specSegMatch, hx1, hx2, hrec, hxu]

/-- C1 (amended): `topicMatches` implements the §4.3 wildcard semantics
on the well-formed fragment: writing the filter as segments `ps` and
the topic as segments `ts` (each segment `/`-free, both lists
nonempty), the two agree whenever (a) `#` occurs in the filter only as
the whole final segment, (b) neither the filter string nor the topic
string ends in `/` (final segments nonempty), and (c) a filter ending
in its `#` segment has at most as many segments as the topic.  Outside
this fragment the code deviates from the specification (see the
counterexample: a non-final `#` absorbs the topic remainder; also
`a/+` vs. `a/` and `a/#` vs. `a`). -/
theorem topicMatches_spec (ps ts : List (List Char))
    (hps : ps ≠ []) (hts : ts ≠ [])
    (hp : patSegsOK ps) (ht : topSegsOK ts)
    (hcount : ps.getLast? = some ['#'] → ps.length ≤ ts.length) :
    topicMatches (joinSegs ps) (joinSegs ts) = specSegMatch ps ts := by
  obtain ⟨hp1, hp2, hp3⟩ := hp
  obtain ⟨ht1, ht2⟩ := ht
  unfold topicMatches
  by_cases heq : joinSegs ps = joinSegs ts
  · rw [if_pos heq]
    have hpt : ps = ts := joinSegs_inj ps ts hps hts hp1 ht1 heq
    subst hpt
    exact (specSegMatch_self ps).symm
  · rw [if_neg heq]
    by_cases hwild : ¬ (joinSegs ps).contains '+' ∧ ¬ (joinSegs ps).contains '#'
    · rw [if_pos hwild]
      have hseg : ∀ x ∈ ps, ('#' : Char) ∉ x ∧ ('+' : Char) ∉ x := by
        intro x hx
        constructor
        · intro hc
          exact hwild.2 (by
            have := mem_joinSegs hx hc
            simp [List.contains, List.elem_eq_mem, this])
        · intro hc
          exact hwild.1 (by
            have := mem_joinSegs hx hc
            simp [List.contains, List.elem_eq_mem, this])
      rw [specSegMatch_literal ps ts hseg]
      have hne : ps ≠ ts := by
        intro h
        exact heq (by rw [h])
      simp [hne]
    · rw [if_neg hwild]
      exact loopSpec ps ts _ (by omega) hp1 hp2 hp3 ht1 ht2 hcount

/-- C1 witness: the amended equivalence at the concrete filter `a/+`
and topic `a/b` (segment lists `[[a],[+]]` and `[[a],[b]]`). -/
theorem topicMatches_spec_witness :
    (([['a'], ['+']] : List (List Char)) ≠ [] ∧
      ([['a'], ['b']] : List (List Char)) ≠ [] ∧
      patSegsOK [['a'], ['+']] ∧ topSegsOK [['a'], ['b']]) ∧
    topicMatches (joinSegs [['a'], ['+']]) (joinSegs [['a'], ['b']]) =
      specSegMatch [['a'], ['+']] [['a'], ['b']] :=
  ⟨⟨by decide, by decide, ⟨by decide, by decide, by decide⟩, ⟨by decide, by decide⟩⟩,
    topicMatches_spec [['a'], ['+']] [['a'], ['b']] (by decide) (by decide)
      ⟨by decide, by decide, by decide⟩ ⟨by decide, by decide⟩ (by decide)⟩
